import Mathlib

/-!
Shallow embedding of the vixcpp/cache module (offline-first HTTP response
cache).  C++ `std::string` is modelled as `List Char` (byte-level
lexicographic comparison mirrors `std::string::operator<`),
`std::int64_t` as `Int`, `std::unordered_map` as an association list, and
`std::optional` as `Option`.  Sources embedded here: `CacheEntry.hpp`,
`CachePolicy.hpp`, `CacheContext.hpp`, `CacheContextMapper.hpp`,
`CacheKey.hpp`, `HeaderUtil.hpp`, `LruMemoryStore.hpp`, `FileStore.hpp`,
and the `Cache` facade.
-/

namespace VixCache

/-- Str models `std::string` as a list of characters. -/
abbrev Str := List Char

/-- CacheEntry from `CacheEntry.hpp`: status, body, headers map, creation
timestamp in milliseconds. -/
structure CacheEntry where
  status : Int := 200
  body : Str := []
  headers : List (Str × Str) := []
  created_at_ms : Int := 0
deriving Repr, DecidableEq

/-- CacheContext from `CacheContext.hpp`: two independent boolean flags. -/
structure CacheContext where
  offline : Bool := false
  network_error : Bool := false
deriving Repr, DecidableEq

/-- Online context constructor from `CacheContext.hpp`. -/
def CacheContext.Online : CacheContext := {}

/-- Offline context constructor from `CacheContext.hpp`. -/
def CacheContext.Offline : CacheContext := { offline := true }

/-- NetworkError context constructor from `CacheContext.hpp`. -/
def CacheContext.NetworkErrorCtx : CacheContext := { network_error := true }

/-- CachePolicy from `CachePolicy.hpp` (source text carried in
`src/README.md`): TTL, two stale windows and their enabling flags. -/
structure CachePolicy where
  ttl_ms : Int := 60000
  stale_if_error_ms : Int := 300000
  stale_if_offline_ms : Int := 600000
  allow_stale_if_error : Bool := true
  allow_stale_if_offline : Bool := true
deriving Repr, DecidableEq

/-- CachePolicy::is_fresh: `age_ms <= ttl_ms`. -/
def CachePolicy.is_fresh (p : CachePolicy) (age_ms : Int) : Bool :=
  age_ms ≤ p.ttl_ms

/-- CachePolicy::allow_stale_error:
`allow_stale_if_error && age_ms <= stale_if_error_ms`. -/
def CachePolicy.allow_stale_error (p : CachePolicy) (age_ms : Int) : Bool :=
  p.allow_stale_if_error && (age_ms ≤ p.stale_if_error_ms)

/-- CachePolicy::allow_stale_offline:
`allow_stale_if_offline && age_ms <= stale_if_offline_ms`. -/
def CachePolicy.allow_stale_offline (p : CachePolicy) (age_ms : Int) : Bool :=
  p.allow_stale_if_offline && (age_ms ≤ p.stale_if_offline_ms)

/-- RequestOutcome from `CacheContextMapper.hpp`. -/
inductive RequestOutcome where
  | Ok
  | NetworkError
deriving Repr, DecidableEq

/-- contextFromProbe from `CacheContextMapper.hpp`; the external
`vix::net::NetworkProbe` collaborator is abstracted by its only used
capability, the `isOnline : now_ms → Bool` query. -/
def contextFromProbe (isOnline : Int → Bool) (now_ms : Int) : CacheContext :=
  let ctx : CacheContext := {}
  if !(isOnline now_ms) then { ctx with offline := true } else ctx

/-- contextFromProbeAndOutcome from `CacheContextMapper.hpp`: extends
contextFromProbe with the network_error flag on a NetworkError outcome. -/
def contextFromProbeAndOutcome (isOnline : Int → Bool) (now_ms : Int)
    (outcome : RequestOutcome) : CacheContext :=
  let ctx := contextFromProbe isOnline now_ms
  if outcome = RequestOutcome.NetworkError then
    { ctx with network_error := true }
  else ctx

/-- Association-list lookup modelling `std::unordered_map::find`
(keys are unique in a well-formed map). -/
def lookupA {β : Type} (k : Str) : List (Str × β) → Option β
  | [] => none
  | p :: rest => if p.1 = k then some p.2 else lookupA k rest

/-- Association-list update-or-insert modelling `map[k] = v`
(updates the existing binding in place, else appends a new one). -/
def insertA {β : Type} (k : Str) (v : β) : List (Str × β) → List (Str × β)
  | [] => [(k, v)]
  | p :: rest => if p.1 = k then (k, v) :: rest else p :: insertA k v rest

/-- Association-list removal of the binding for `k`, if present,
modelling `std::unordered_map::erase(key)`. -/
def eraseA {β : Type} (k : Str) : List (Str × β) → List (Str × β)
  | [] => []
  | p :: rest => if p.1 = k then rest else p :: eraseA k rest

/-- Store models the in-memory `std::unordered_map<std::string, CacheEntry>`
backing `MemoryStore` and `FileStore`. -/
abbrev Store := List (Str × CacheEntry)

/-- Modelled from the spec: `Cache::get` (the body of `Cache.cpp` is not
among the sources; only the declaration in `Cache.hpp` is).  Spec §4.2:
look the key up in the store (absence is a miss), compute
`age = now − created_at`, then in fixed order serve when fresh, else when
offline and the offline-stale window allows, else when a network error
occurred and the error-stale window allows, else miss. -/
def cacheGet (p : CachePolicy) (store : Store) (key : Str) (now_ms : Int)
    (ctx : CacheContext) : Option CacheEntry :=
  match lookupA key store with
  | none => none
  | some e =>
    let age := now_ms - e.created_at_ms
    if p.is_fresh age then some e
    else if ctx.offline && p.allow_stale_offline age then some e
    else if ctx.network_error && p.allow_stale_error age then some e
    else none

/-- toLower character mapping of `std::tolower` in the default locale as
used by `HeaderUtil::toLower` / `CacheKey::lower_`: ASCII `A`–`Z` shift
down by 32, all other values unchanged. -/
def lowerChar (c : Char) : Char :=
  if 65 ≤ c.toNat ∧ c.toNat ≤ 90 then Char.ofNat (c.toNat + 32) else c

/-- toUpper character mapping of `std::toupper` (default locale) as used
by `CacheKey::upper_`: ASCII `a`–`z` shift up by 32. -/
def upperChar (c : Char) : Char :=
  if 97 ≤ c.toNat ∧ c.toNat ≤ 122 then Char.ofNat (c.toNat - 32) else c

/-- HeaderUtil::toLower / CacheKey::lower_: lowercase every character. -/
def lowerStr (s : Str) : Str := s.map lowerChar

/-- CacheKey::upper_: uppercase every character. -/
def upperStr (s : Str) : Str := s.map upperChar

/-- HeaderUtil::normalizeInPlace: rebuild the header map with lowercased
keys; on collisions the later-visited binding wins (`norm[toLower(k)] = v`
iterated over the map). -/
def normalizeHeaders (hs : List (Str × Str)) : List (Str × Str) :=
  hs.foldl (fun acc kv => insertA (lowerStr kv.1) kv.2 acc) []

/-- Modelled from the spec: `Cache::put` (the body of `Cache.cpp` is not
among the sources).  Spec §4.2: lowercase the header keys (last-write-wins
on collision, the embedded `HeaderUtil::normalizeInPlace`) and forward the
entry to the store (`std::unordered_map` insert-or-assign). -/
def cachePut (store : Store) (key : Str) (e : CacheEntry) : Store :=
  insertA key { e with headers := normalizeHeaders e.headers } store

/-- pruneLimit, modelled from the spec for `Cache::prune`: the maximum of
all windows an entry could ever be served under — the TTL, and each stale
window only when its enabling flag is set. -/
def pruneLimit (p : CachePolicy) : Int :=
  max p.ttl_ms
    (max (if p.allow_stale_if_error then p.stale_if_error_ms else p.ttl_ms)
      (if p.allow_stale_if_offline then p.stale_if_offline_ms else p.ttl_ms))

/-- Modelled from the spec: `Cache::prune` (the body of `Cache.cpp` is not
among the sources).  Spec §4.2: bulk-remove, via the store's `eraseIf`,
every entry whose age exceeds `pruneLimit`, returning the removed count. -/
def cachePrune (p : CachePolicy) (now_ms : Int) (store : Store) :
    Nat × Store :=
  let pred : CacheEntry → Bool := fun e => pruneLimit p < now_ms - e.created_at_ms
  ((store.filter (fun kv => pred kv.2)).length,
    store.filter (fun kv => !pred kv.2))

/-- lexLt models `std::string::operator<`: lexicographic comparison of the
character values (`char_traits<char>::compare` byte order). -/
def lexLt : Str → Str → Bool
  | [], [] => false
  | [], _ :: _ => true
  | _ :: _, [] => false
  | a :: as, b :: bs =>
    if a.toNat < b.toNat then true
    else if b.toNat < a.toNat then false
    else lexLt as bs

/-- pairLt is the comparator lambda of `CacheKey::normalizeQuery_`:
`if (a.first != b.first) return a.first < b.first; return a.second < b.second`. -/
def pairLt (a b : Str × Str) : Bool :=
  if a.1 ≠ b.1 then lexLt a.1 b.1 else lexLt a.2 b.2

/-- qle is the non-strict order induced by the `pairLt` comparator;
`std::sort` produces the (here unique) permutation sorted by it. -/
def qle (a b : Str × Str) : Prop := pairLt b a = false

instance : DecidableRel qle := fun a b => by unfold qle; infer_instance

/-- splitEq splits one query segment on the first `=`
(`part.find('=')` in `CacheKey::normalizeQuery_`); a missing `=` yields
an empty value. -/
def splitEq (part : Str) : Str × Str :=
  let k := part.takeWhile (fun c => c ≠ '=')
  match part.dropWhile (fun c => c ≠ '=') with
  | [] => (part, [])
  | _ :: v => (k, v)

/-- parseQueryAux is the splitting loop of `CacheKey::normalizeQuery_`
written as a scan: `acc` is the segment collected since the last `&`; on
a `&` the segment is emitted and, exactly as the C++ loop resumes at
`amp + 1` only while `i < size`, a `&` at the very end emits no further
segment. -/
def parseQueryAux (acc : Str) : Str → List (Str × Str)
  | [] => [splitEq acc]
  | c :: rest =>
    if c = '&' then
      splitEq acc ::
        (match rest with
         | [] => []
         | d :: rest2 => parseQueryAux [] (d :: rest2))
    else parseQueryAux (acc ++ [c]) rest

/-- parseQuery gives the pair list of `CacheKey::normalizeQuery_`
(no segments at all for the empty query). -/
def parseQuery (q : Str) : List (Str × Str) :=
  if q = [] then [] else parseQueryAux [] q

/-- renderPair is the output step of `CacheKey::normalizeQuery_`:
`key` alone when the value is empty, else `key=value`. -/
def renderPair (kv : Str × Str) : Str :=
  if kv.2 = [] then kv.1 else kv.1 ++ '=' :: kv.2

/-- joinPairs rejoins rendered pairs with `&` (the `if (idx) oss << "&"`
loop of `CacheKey::normalizeQuery_`). -/
def joinPairs : List (Str × Str) → Str
  | [] => []
  | [kv] => renderPair kv
  | kv :: kv2 :: rest => renderPair kv ++ '&' :: joinPairs (kv2 :: rest)

/-- CacheKey::normalizeQuery_: empty in, empty out; otherwise split into
pairs, sort with the `pairLt` comparator, rejoin. -/
def normalizeQuery (q : Str) : Str :=
  if q = [] then [] else joinPairs (List.insertionSort qle (parseQuery q))

/-- isSpaceChar models `std::isspace` in the default locale: space and
the five control characters 9–13. -/
def isSpaceChar (c : Char) : Bool :=
  c.toNat = 32 || (9 ≤ c.toNat && c.toNat ≤ 13)

/-- CacheKey::trim_: drop leading and trailing `isspace` characters. -/
def trimStr (v : Str) : Str :=
  ((v.dropWhile isSpaceChar).reverse.dropWhile isSpaceChar).reverse

/-- headerFold is the body of the header loop in `CacheKey::fromRequest`:
look the name up under its exact spelling; on a hit append
`lowered-name=trimmed-value;`; otherwise retry under the lowercased
spelling; on a double miss append nothing (`continue`). -/
def headerFold (headers : List (Str × Str)) (key : Str) (name : Str) : Str :=
  let hn := lowerStr name
  match lookupA name headers with
  | some v => key ++ hn ++ '=' :: trimStr v ++ [';']
  | none =>
    match lookupA hn headers with
    | some v2 => key ++ hn ++ '=' :: trimStr v2 ++ [';']
    | none => key

/-- CacheKey::fromRequest: uppercased method, space, path, `?` plus the
normalized query when nonempty, and — only when the inclusion list is
nonempty — a ` |h:` segment built by scanning the inclusion list in order,
looking each name up under its exact spelling first and its lowercased
spelling second. -/
def fromRequest (method path query : Str) (headers : List (Str × Str))
    (include_headers : List Str) : Str :=
  let m := upperStr method
  let q := normalizeQuery query
  let key1 := m ++ ' ' :: path
  let key2 := if q = [] then key1 else key1 ++ '?' :: q
  if include_headers = [] then key2
  else include_headers.foldl (headerFold headers) (key2 ++ (" |h:").data)

/-- LruStore models `LruMemoryStore`: the configured capacity, the
recency list `lru_` (front = most recently used) and the key→entry map
`map_`.  The C++ `Node` stores a list iterator; here the recency relation
is carried by the key's position in `lru`. -/
structure LruStore where
  max_entries : Nat
  lru : List Str
  map : List (Str × CacheEntry)
deriving Repr, DecidableEq

/-- emptyLru is a freshly constructed `LruMemoryStore` with the given
capacity. -/
def emptyLru (max_entries : Nat) : LruStore :=
  { max_entries := max_entries, lru := [], map := [] }

/-- touchKey models `LruMemoryStore::touch_`: splice the key's list node
to the front of the recency list. -/
def touchKey (k : Str) (lru : List Str) : List Str :=
  k :: lru.erase k

/-- updateA replaces the value bound to `k`, leaving the map's other
bindings (and the binding's position) unchanged
(`it->second.entry = entry`). -/
def updateA {β : Type} (k : Str) (v : β) : List (Str × β) → List (Str × β)
  | [] => []
  | p :: rest => if p.1 = k then (k, v) :: rest else p :: updateA k v rest

/-- evictLoop is the `while (map_.size() > max_entries && !lru_.empty())`
loop of `LruMemoryStore::evictIfNeeded_`: take the back of the recency
list as victim, erase it from the map when found, pop it from the list.
The fuel argument only bounds the iteration count; called with
`fuel = lru.length` it runs the loop to completion, since each iteration
shortens the list by one. -/
def evictLoop (max_entries : Nat) :
    Nat → List Str → List (Str × CacheEntry) → List Str × List (Str × CacheEntry)
  | 0, lru, m => (lru, m)
  | fuel + 1, lru, m =>
    match lru.getLast? with
    | none => (lru, m)
    | some victim =>
      if max_entries < m.length then
        evictLoop max_entries fuel lru.dropLast (eraseA victim m)
      else (lru, m)

/-- LruMemoryStore::evictIfNeeded_. -/
def evictIfNeeded (s : LruStore) : LruStore :=
  { s with
    lru := (evictLoop s.max_entries s.lru.length s.lru s.map).1,
    map := (evictLoop s.max_entries s.lru.length s.lru s.map).2 }

/-- LruMemoryStore::put: update-and-touch when the key exists, else push
the key to the front of the recency list, insert the node, and evict as
needed. -/
def lruPut (k : Str) (e : CacheEntry) (s : LruStore) : LruStore :=
  match lookupA k s.map with
  | some _ => { s with map := updateA k e s.map, lru := touchKey k s.lru }
  | none =>
    evictIfNeeded { s with lru := k :: s.lru, map := (k, e) :: s.map }

/-- LruMemoryStore::get: a miss leaves the store untouched; a hit marks
the key most recently used and returns a copy of the entry. -/
def lruGet (k : Str) (s : LruStore) : Option CacheEntry × LruStore :=
  match lookupA k s.map with
  | none => (none, s)
  | some e => (some e, { s with lru := touchKey k s.lru })

/-- LruMemoryStore::erase: remove the key from the map and unlink it from
the recency list; absent keys are a no-op. -/
def lruErase (k : Str) (s : LruStore) : LruStore :=
  match lookupA k s.map with
  | none => s
  | some _ => { s with map := eraseA k s.map, lru := s.lru.erase k }

/-- LruMemoryStore::clear: drop both structures. -/
def lruClear (s : LruStore) : LruStore :=
  { s with map := [], lru := [] }

/-- LruMemoryStore::eraseIf: scan the map, removing every node whose
entry matches the predicate from both the map and the recency list,
returning the removed count. -/
def lruEraseIf (pred : CacheEntry → Bool) (s : LruStore) : Nat × LruStore :=
  let doomed : Str → Bool := fun k =>
    match lookupA k s.map with
    | some e => pred e
    | none => false
  ((s.map.filter (fun kv => pred kv.2)).length,
    { s with
      map := s.map.filter (fun kv => !pred kv.2),
      lru := s.lru.filter (fun k => !doomed k) })

/-- LruOp enumerates the mutating / reading operations of the LRU store,
for quantifying over operation sequences. -/
inductive LruOp where
  | put (k : Str) (e : CacheEntry)
  | get (k : Str)
  | erase (k : Str)
  | clear
  | eraseIf (pred : CacheEntry → Bool)

/-- applyLruOp runs one operation, keeping only the store state. -/
def applyLruOp (s : LruStore) : LruOp → LruStore
  | LruOp.put k e => lruPut k e s
  | LruOp.get k => (lruGet k s).2
  | LruOp.erase k => lruErase k s
  | LruOp.clear => lruClear s
  | LruOp.eraseIf pred => (lruEraseIf pred s).2

/-- runLruOps folds a whole operation sequence over a store. -/
def runLruOps (ops : List LruOp) (s : LruStore) : LruStore :=
  ops.foldl applyLruOp s

/-- FileStoreState models `FileStore` together with the byte sink it
writes: `disk` is the parse result of the backing file (`none` when the
file is absent or unparsable), `loaded` the lazy-load latch, `map` the
in-memory mirror, and `flushCount` counts the `flush_` calls (each of
which serializes the whole map to the configured path). -/
structure FileStoreState where
  disk : Option (List (Str × CacheEntry)) := none
  loaded : Bool := false
  map : List (Str × CacheEntry) := []
  flushCount : Nat := 0
deriving Repr, DecidableEq

/-- FileStore::load_: on the first call bring the parsed file contents
(empty when absent/unparsable) into the in-memory map. -/
def fsLoad (s : FileStoreState) : FileStoreState :=
  if s.loaded then s
  else { s with loaded := true, map := s.disk.getD [] }

/-- FileStore::flush_: serialize the entire in-memory map to the
configured path. -/
def fsFlush (s : FileStoreState) : FileStoreState :=
  { s with disk := some s.map, flushCount := s.flushCount + 1 }

/-- Modelled from the spec: `FileStore::put` (its body lives in
`FileStore.cpp`, not among the sources; spec §4.6: every mutating
operation loads lazily, applies the mutation, and performs a full
flush). -/
def fsPut (k : Str) (e : CacheEntry) (s : FileStoreState) : FileStoreState :=
  let s1 := fsLoad s
  fsFlush { s1 with map := insertA k e s1.map }

/-- Modelled from the spec: `FileStore::get` (spec §4.6: lazy load, read
the map, never flush). -/
def fsGet (k : Str) (s : FileStoreState) : Option CacheEntry × FileStoreState :=
  let s1 := fsLoad s
  (lookupA k s1.map, s1)

/-- Modelled from the spec: `FileStore::erase` (spec §4.6: lazy load,
remove the binding, full flush). -/
def fsErase (k : Str) (s : FileStoreState) : FileStoreState :=
  let s1 := fsLoad s
  fsFlush { s1 with map := eraseA k s1.map }

/-- Modelled from the spec: `FileStore::clear` (spec §4.6: lazy load,
empty the map, full flush persisting the empty state). -/
def fsClear (s : FileStoreState) : FileStoreState :=
  let s1 := fsLoad s
  fsFlush { s1 with map := [] }

/-- FileStore::eraseIf, from `FileStore.hpp`: lazy load, remove every
entry matching the predicate, and flush only when `removed > 0`. -/
def fsEraseIf (pred : CacheEntry → Bool) (s : FileStoreState) :
    Nat × FileStoreState :=
  let s1 := fsLoad s
  let removed := (s1.map.filter (fun kv => pred kv.2)).length
  let s2 := { s1 with map := s1.map.filter (fun kv => !pred kv.2) }
  if 0 < removed then (removed, fsFlush s2) else (removed, s2)

/-- headerItem is the contribution of one inclusion-list name to the
`|h:` segment of `CacheKey::fromRequest`: exact-spelling lookup first,
lowercased fallback second, nothing when both miss. -/
def headerItem (headers : List (Str × Str)) (name : Str) : Str :=
  let hn := lowerStr name
  match lookupA name headers with
  | some v => hn ++ '=' :: trimStr v ++ [';']
  | none =>
    match lookupA hn headers with
    | some v2 => hn ++ '=' :: trimStr v2 ++ [';']
    | none => []

/-- LruInv is the LRU store invariant of the spec: unique map keys, a
duplicate-free recency list carrying exactly the map's keys (the shape
the C++ stored list iterators maintain), and the capacity bound. -/
def LruInv (s : LruStore) : Prop :=
  (s.map.map Prod.fst).Nodup
  ∧ s.lru.Nodup
  ∧ (∀ k, k ∈ s.lru ↔ k ∈ s.map.map Prod.fst)
  ∧ s.map.length ≤ s.max_entries

/-! Helper lemmas on the association-list primitives. -/

theorem lookupA_cons {β : Type} (k : Str) (p : Str × β) (rest : List (Str × β)) :
    lookupA k (p :: rest) = if p.1 = k then some p.2 else lookupA k rest := rfl

theorem lookupA_eq_none {β : Type} (k : Str) (m : List (Str × β)) :
    lookupA k m = none ↔ k ∉ m.map Prod.fst := by
  induction m with
  | nil => simp [lookupA]
  | cons p rest ih =>
    rw [lookupA_cons]
    by_cases h : p.1 = k
    · rw [if_pos h]
      simp only [List.map_cons, List.mem_cons]
      constructor
      · intro hx
        exact Option.noConfusion hx
      · intro hk
        exact absurd (Or.inl h.symm) hk
    · rw [if_neg h]
      simp only [List.map_cons, List.mem_cons]
      rw [ih]
      constructor
      · rintro hk (h1 | h2)
        · exact h h1.symm
        · exact hk h2
      · intro hk h2
        exact hk (Or.inr h2)

theorem lookupA_isSome_iff {β : Type} (k : Str) (m : List (Str × β)) :
    (lookupA k m).isSome ↔ k ∈ m.map Prod.fst := by
  constructor
  · intro hs
    by_contra hk
    rw [← lookupA_eq_none] at hk
    rw [hk] at hs
    exact Bool.noConfusion hs
  · intro hm
    rcases ho : lookupA k m with _ | v
    · rw [lookupA_eq_none] at ho
      exact absurd hm ho
    · rfl

theorem insertA_cons {β : Type} (k : Str) (v : β) (p : Str × β)
    (rest : List (Str × β)) :
    insertA k v (p :: rest) =
      if p.1 = k then (k, v) :: rest else p :: insertA k v rest := rfl

theorem lookupA_insertA {β : Type} (k k' : Str) (v : β) (m : List (Str × β)) :
    lookupA k' (insertA k v m) = if k = k' then some v else lookupA k' m := by
  induction m with
  | nil =>
    by_cases h : k = k' <;> simp [insertA, lookupA, h]
  | cons p rest ih =>
    rw [insertA_cons]
    by_cases h1 : p.1 = k
    · rw [if_pos h1, lookupA_cons]
      by_cases h2 : k = k'
      · rw [if_pos h2, if_pos h2]
      · rw [if_neg h2, if_neg h2, lookupA_cons, if_neg (h1.symm ▸ h2)]
    · rw [if_neg h1, lookupA_cons]
      by_cases h2 : p.1 = k'
      · have h3 : ¬(k = k') := fun hk => h1 (h2.trans hk.symm)
        rw [if_pos h2, if_neg h3, lookupA_cons, if_pos h2]
      · rw [if_neg h2, ih, lookupA_cons, if_neg h2]

theorem map_fst_updateA {β : Type} (k : Str) (v : β) (m : List (Str × β)) :
    (updateA k v m).map Prod.fst = m.map Prod.fst := by
  induction m with
  | nil => simp [updateA]
  | cons p rest ih =>
    rw [updateA]
    by_cases h : p.1 = k
    · rw [if_pos h]
      simp [h]
    · rw [if_neg h]
      simp [ih]

theorem length_updateA {β : Type} (k : Str) (v : β) (m : List (Str × β)) :
    (updateA k v m).length = m.length := by
  have := congrArg List.length (map_fst_updateA k v m)
  simpa using this

theorem map_fst_eraseA {β : Type} (k : Str) (m : List (Str × β)) :
    (eraseA k m).map Prod.fst = (m.map Prod.fst).erase k := by
  induction m with
  | nil => simp [eraseA]
  | cons p rest ih =>
    rw [eraseA]
    by_cases h : p.1 = k
    · rw [if_pos h]
      simp [List.erase_cons, h]
    · rw [if_neg h]
      simp [List.erase_cons, h, ih]

theorem lookupA_mem {β : Type} (k : Str) (v : β) (m : List (Str × β))
    (h : lookupA k m = some v) : (k, v) ∈ m := by
  induction m with
  | nil => simp [lookupA] at h
  | cons p rest ih =>
    rw [lookupA_cons] at h
    by_cases hp : p.1 = k
    · rw [if_pos hp] at h
      have hv : p.2 = v := Option.some.inj h
      have : p = (k, v) := by
        cases p
        simp only [Prod.mk.injEq]
        exact ⟨hp, hv⟩
      rw [← this]
      exact List.mem_cons_self p rest
    · rw [if_neg hp] at h
      exact List.mem_cons_of_mem _ (ih h)

theorem mem_lookupA {β : Type} (k : Str) (v : β) (m : List (Str × β))
    (hnd : (m.map Prod.fst).Nodup) (h : (k, v) ∈ m) : lookupA k m = some v := by
  induction m with
  | nil => simp at h
  | cons p rest ih =>
    simp only [List.map_cons, List.nodup_cons] at hnd
    rcases List.mem_cons.mp h with h1 | h1
    · rw [← h1, lookupA_cons, if_pos rfl]
    · have hk : p.1 ≠ k := by
        intro hpk
        have : k ∈ rest.map Prod.fst := by
          exact List.mem_map.mpr ⟨(k, v), h1, rfl⟩
        exact hnd.1 (hpk ▸ this)
      rw [lookupA_cons, if_neg hk]
      exact ih hnd.2 h1

/-- C1: `Cache::get` serves exactly the stored entry, and serves it
precisely when the policy decision tree admits it: a key absent from the
store is a miss; a found entry with `age = now_ms - created_at_ms` is
served when it is fresh (regardless of context), or when the context is
offline and the offline-stale window allows the age, or when the context
has a network error and the error-stale window allows the age; otherwise
the result is empty.  The fixed evaluation order of the three serve
conditions is observationally captured by this characterization, since
every serving branch returns the same stored entry. -/
theorem servedB_def (p : CachePolicy) (ctx : CacheContext) (age : Int) :
    (p.is_fresh age
      || ctx.offline && p.allow_stale_offline age
      || ctx.network_error && p.allow_stale_error age) = true ↔
    (p.is_fresh age = true
      ∨ ctx.offline = true ∧ p.allow_stale_offline age = true
      ∨ ctx.network_error = true ∧ p.allow_stale_error age = true) := by
  simp [Bool.or_eq_true, Bool.and_eq_true, or_assoc]

theorem cacheGet_of_none (p : CachePolicy) (store : Store) (key : Str)
    (now_ms : Int) (ctx : CacheContext) (ho : lookupA key store = none) :
    cacheGet p store key now_ms ctx = none := by
  unfold cacheGet
  rw [ho]

theorem cacheGet_of_found (p : CachePolicy) (store : Store) (key : Str)
    (now_ms : Int) (ctx : CacheContext) (e0 : CacheEntry)
    (ho : lookupA key store = some e0) :
    cacheGet p store key now_ms ctx =
      if (p.is_fresh (now_ms - e0.created_at_ms)
          || ctx.offline && p.allow_stale_offline (now_ms - e0.created_at_ms)
          || ctx.network_error && p.allow_stale_error (now_ms - e0.created_at_ms)) = true
      then some e0 else none := by
  unfold cacheGet
  rw [ho]
  rcases h1 : p.is_fresh (now_ms - e0.created_at_ms) with _ | _ <;>
  rcases h2 : ctx.offline with _ | _ <;>
  rcases h3 : p.allow_stale_offline (now_ms - e0.created_at_ms) with _ | _ <;>
  rcases h4 : ctx.network_error with _ | _ <;>
  rcases h5 : p.allow_stale_error (now_ms - e0.created_at_ms) with _ | _ <;>
    simp [h1, h2, h3, h4, h5]

/-- C1: `Cache::get` serves exactly the stored entry, and serves it
precisely when the policy decision tree admits it: a key absent from the
store is a miss; a found entry with `age = now_ms - created_at_ms` is
served when it is fresh (regardless of context), or when the context is
offline and the offline-stale window allows the age, or when the context
has a network error and the error-stale window allows the age; otherwise
the result is empty.  The fixed evaluation order of the three serve
conditions is observationally captured by this characterization, since
every serving branch returns the same stored entry. -/
theorem cacheGet_decision (p : CachePolicy) (store : Store) (key : Str)
    (now_ms : Int) (ctx : CacheContext) :
    (∀ e, cacheGet p store key now_ms ctx = some e ↔
      lookupA key store = some e ∧
        (p.is_fresh (now_ms - e.created_at_ms) = true
          ∨ ctx.offline = true ∧ p.allow_stale_offline (now_ms - e.created_at_ms) = true
          ∨ ctx.network_error = true ∧ p.allow_stale_error (now_ms - e.created_at_ms) = true))
    ∧ (cacheGet p store key now_ms ctx = none
        ∨ cacheGet p store key now_ms ctx = lookupA key store) := by
  constructor
  · intro e
    rcases ho : lookupA key store with _ | e0
    · rw [cacheGet_of_none p store key now_ms ctx ho]
      simp
    · rw [cacheGet_of_found p store key now_ms ctx e0 ho]
      by_cases hb : (p.is_fresh (now_ms - e0.created_at_ms)
          || ctx.offline && p.allow_stale_offline (now_ms - e0.created_at_ms)
          || ctx.network_error && p.allow_stale_error (now_ms - e0.created_at_ms)) = true
      · rw [if_pos hb]
        constructor
        · intro he
          have he0 : e0 = e := Option.some.inj he
          subst he0
          exact ⟨rfl, (servedB_def p ctx _).mp hb⟩
        · intro h
          exact h.1
      · rw [if_neg hb]
        constructor
        · intro he
          exact Option.noConfusion he
        · rintro ⟨he, hserve⟩
          have he0 : e0 = e := Option.some.inj he
          subst he0
          exact absurd ((servedB_def p ctx _).mpr hserve) hb
  · rcases ho : lookupA key store with _ | e0
    · rw [cacheGet_of_none p store key now_ms ctx ho]
      simp
    · rw [cacheGet_of_found p store key now_ms ctx e0 ho]
      by_cases hb : (p.is_fresh (now_ms - e0.created_at_ms)
          || ctx.offline && p.allow_stale_offline (now_ms - e0.created_at_ms)
          || ctx.network_error && p.allow_stale_error (now_ms - e0.created_at_ms)) = true
      · simp [hb]
      · simp [hb]

/-- C10: `contextFromProbeAndOutcome` sets `offline` exactly when the
probe reports not-online at `now_ms`, sets `network_error` exactly when
the outcome is `NetworkError`, and in particular an offline probe
combined with a `NetworkError` outcome yields a context with both flags
true at once. -/
theorem contextFromProbeAndOutcome_flags :
    (∀ (isOnline : Int → Bool) (now_ms : Int) (outcome : RequestOutcome),
      ((contextFromProbeAndOutcome isOnline now_ms outcome).offline = true
        ↔ isOnline now_ms = false)
      ∧ ((contextFromProbeAndOutcome isOnline now_ms outcome).network_error = true
        ↔ outcome = RequestOutcome.NetworkError))
    ∧ ∃ (isOnline : Int → Bool) (now_ms : Int) (outcome : RequestOutcome),
      (contextFromProbeAndOutcome isOnline now_ms outcome).offline = true
      ∧ (contextFromProbeAndOutcome isOnline now_ms outcome).network_error = true := by
  constructor
  · intro isOnline now_ms outcome
    rcases h : isOnline now_ms with _ | _ <;>
      cases outcome <;>
        simp [contextFromProbeAndOutcome, contextFromProbe, h]
  · exact ⟨fun _ => false, 0, RequestOutcome.NetworkError, by decide, by decide⟩

/-- C9 counterexample: the claim quantifies over every negative age, but
`is_fresh` is the bare comparison `age_ms <= ttl_ms`, so a policy whose
`ttl_ms` is itself more negative than the age refuses it: with
`ttl_ms = -2` the negative age `-1` is not fresh. -/
theorem negative_age_not_always_fresh :
    ((-1 : Int) < 0)
    ∧ ({ ttl_ms := -2 : CachePolicy }.is_fresh (-1) = false) := by
  constructor
  · decide
  · decide

/-- C9 amended: for every policy whose `ttl_ms` is nonnegative (as in
every configuration the sources exhibit), a negative age — an entry whose
`created_at_ms` lies in the future of `now_ms` — always counts as fresh,
so `Cache::get` serves such an entry under every context; and no policy
predicate clamps or rejects negative ages: with its enabling flag set and
a nonnegative window, each stale predicate likewise accepts any negative
age. -/
theorem negative_age_served_fresh (p : CachePolicy) (now_ms : Int)
    (e : CacheEntry) (key : Str) (store : Store) (ctx : CacheContext)
    (httl : 0 ≤ p.ttl_ms) (hage : now_ms - e.created_at_ms < 0)
    (hfound : lookupA key store = some e) :
    p.is_fresh (now_ms - e.created_at_ms) = true
    ∧ cacheGet p store key now_ms ctx = some e
    ∧ (p.allow_stale_if_error = true → 0 ≤ p.stale_if_error_ms →
        p.allow_stale_error (now_ms - e.created_at_ms) = true)
    ∧ (p.allow_stale_if_offline = true → 0 ≤ p.stale_if_offline_ms →
        p.allow_stale_offline (now_ms - e.created_at_ms) = true) := by
  have hfresh : p.is_fresh (now_ms - e.created_at_ms) = true := by
    unfold CachePolicy.is_fresh
    simp only [decide_eq_true_eq]
    omega
  refine ⟨hfresh, ?_, ?_, ?_⟩
  · rw [cacheGet_of_found p store key now_ms ctx e hfound]
    rw [if_pos (by simp [hfresh])]
  · intro hflag hwin
    unfold CachePolicy.allow_stale_error
    simp only [hflag, Bool.true_and, decide_eq_true_eq]
    omega
  · intro hflag hwin
    unfold CachePolicy.allow_stale_offline
    simp only [hflag, Bool.true_and, decide_eq_true_eq]
    omega

/-- C9 witness: the amended theorem applied at the default policy, an
entry created at 100 read back at time 50 (age −50), and the offline
context. -/
theorem negative_age_served_fresh_witness :
    ({} : CachePolicy).is_fresh (50 - ({ created_at_ms := 100 } : CacheEntry).created_at_ms) = true
    ∧ cacheGet {} [(('k' :: []), { created_at_ms := 100 })] ('k' :: []) 50 CacheContext.Offline
        = some { created_at_ms := 100 }
    ∧ (({} : CachePolicy).allow_stale_if_error = true → 0 ≤ ({} : CachePolicy).stale_if_error_ms →
        ({} : CachePolicy).allow_stale_error (50 - ({ created_at_ms := 100 } : CacheEntry).created_at_ms) = true)
    ∧ (({} : CachePolicy).allow_stale_if_offline = true → 0 ≤ ({} : CachePolicy).stale_if_offline_ms →
        ({} : CachePolicy).allow_stale_offline (50 - ({ created_at_ms := 100 } : CacheEntry).created_at_ms) = true) :=
  negative_age_served_fresh {} 50 { created_at_ms := 100 } ('k' :: [])
    [(('k' :: []), { created_at_ms := 100 })] CacheContext.Offline
    (by decide) (by decide) (by decide)

/-- C7 counterexample: `FileStore::eraseIf` flushes only when
`removed > 0`, so a call that removes nothing — here on a freshly
constructed store over an absent file — performs no flush, refuting
"every call to eraseIf performs a full flush". -/
theorem fsEraseIf_without_removal_skips_flush :
    (fsEraseIf (fun _ => true) {}).1 = 0
    ∧ (fsEraseIf (fun _ => true) {}).2.flushCount = 0 := by
  constructor
  · decide
  · decide

/-- C7 amended: `put`, `erase` and `clear` each perform exactly one full
flush (the whole in-memory map is serialized to the backing file), `get`
never flushes nor writes, and `eraseIf` performs exactly one full flush
when it removed at least one entry and none otherwise. -/
theorem fileStore_flush_discipline (k : Str) (e : CacheEntry)
    (pred : CacheEntry → Bool) (s : FileStoreState) :
    (fsPut k e s).flushCount = s.flushCount + 1
    ∧ (fsPut k e s).disk = some (fsPut k e s).map
    ∧ (fsErase k s).flushCount = s.flushCount + 1
    ∧ (fsErase k s).disk = some (fsErase k s).map
    ∧ (fsClear s).flushCount = s.flushCount + 1
    ∧ (fsClear s).disk = some (fsClear s).map
    ∧ (fsGet k s).2.flushCount = s.flushCount
    ∧ (fsGet k s).2.disk = s.disk
    ∧ (fsEraseIf pred s).2.flushCount =
        s.flushCount + (if 0 < (fsEraseIf pred s).1 then 1 else 0)
    ∧ (fsEraseIf pred s).2.disk =
        (if 0 < (fsEraseIf pred s).1 then some (fsEraseIf pred s).2.map else s.disk) := by
  have hload_fc : (fsLoad s).flushCount = s.flushCount := by
    unfold fsLoad
    by_cases h : s.loaded <;> simp [h]
  have hload_disk : (fsLoad s).disk = s.disk := by
    unfold fsLoad
    by_cases h : s.loaded <;> simp [h]
  refine ⟨?_, ?_, ?_, ?_, ?_, ?_, ?_, ?_, ?_, ?_⟩
  · simp [fsPut, fsFlush, hload_fc]
  · simp [fsPut, fsFlush]
  · simp [fsErase, fsFlush, hload_fc]
  · simp [fsErase, fsFlush]
  · simp [fsClear, fsFlush, hload_fc]
  · simp [fsClear, fsFlush]
  · simp [fsGet, hload_fc]
  · simp [fsGet, hload_disk]
  · by_cases h : 0 < ((fsLoad s).map.filter (fun kv => pred kv.2)).length
    · simp [fsEraseIf, h, fsFlush, hload_fc]
    · simp [fsEraseIf, h, hload_fc]
  · by_cases h : 0 < ((fsLoad s).map.filter (fun kv => pred kv.2)).length
    · simp [fsEraseIf, h, fsFlush]
    · simp [fsEraseIf, h, hload_disk]

theorem pruneLimit_lt_iff (p : CachePolicy) (age : Int) :
    pruneLimit p < age ↔
      (p.is_fresh age = false
        ∧ p.allow_stale_error age = false
        ∧ p.allow_stale_offline age = false) := by
  unfold pruneLimit CachePolicy.is_fresh CachePolicy.allow_stale_error
    CachePolicy.allow_stale_offline
  rcases he : p.allow_stale_if_error with _ | _ <;>
  rcases hoff : p.allow_stale_if_offline with _ | _ <;>
    simp [max_lt_iff, he, hoff, decide_eq_false_iff_not] <;>
    omega

theorem length_filter_not_add {α : Type} (q : α → Bool) (l : List α) :
    (l.filter q).length + (l.filter (fun a => !q a)).length = l.length := by
  induction l with
  | nil => simp
  | cons a rest ih =>
    rcases h : q a with _ | _ <;> simp [List.filter_cons, h] <;> omega

theorem prunePred_as_policy (p : CachePolicy) (now_ms : Int) (e : CacheEntry) :
    (decide (pruneLimit p < now_ms - e.created_at_ms)) =
      !(p.is_fresh (now_ms - e.created_at_ms)
        || p.allow_stale_error (now_ms - e.created_at_ms)
        || p.allow_stale_offline (now_ms - e.created_at_ms)) := by
  have hiff := pruneLimit_lt_iff p (now_ms - e.created_at_ms)
  rcases hf : p.is_fresh (now_ms - e.created_at_ms) with _ | _ <;>
  rcases he : p.allow_stale_error (now_ms - e.created_at_ms) with _ | _ <;>
  rcases ho : p.allow_stale_offline (now_ms - e.created_at_ms) with _ | _ <;>
    simp only [hf, he, ho, Bool.or_self, Bool.or_true, Bool.true_or,
      Bool.or_false, Bool.false_or, Bool.not_true, Bool.not_false,
      decide_eq_true_eq, decide_eq_false_iff_not] <;>
    simp [hf, he, ho] at hiff <;>
    omega

/-- C2: `Cache::prune(now_ms)` keeps exactly the entries still servable
under some context — those for which freshness or one of the two stale
predicates still answers true — and removes all others, returning exactly
the removed count (removed + kept = original size); running
`prune(now_ms)` again on the pruned store removes nothing and returns 0. -/
theorem cachePrune_spec (p : CachePolicy) (now_ms : Int) (store : Store) :
    (∀ kv : Str × CacheEntry, kv ∈ (cachePrune p now_ms store).2 ↔
      kv ∈ store ∧
        (p.is_fresh (now_ms - kv.2.created_at_ms)
          || p.allow_stale_error (now_ms - kv.2.created_at_ms)
          || p.allow_stale_offline (now_ms - kv.2.created_at_ms)) = true)
    ∧ (cachePrune p now_ms store).1 =
        (store.filter (fun kv =>
          !(p.is_fresh (now_ms - kv.2.created_at_ms)
            || p.allow_stale_error (now_ms - kv.2.created_at_ms)
            || p.allow_stale_offline (now_ms - kv.2.created_at_ms)))).length
    ∧ (cachePrune p now_ms store).1 + (cachePrune p now_ms store).2.length
        = store.length
    ∧ cachePrune p now_ms (cachePrune p now_ms store).2 =
        (0, (cachePrune p now_ms store).2) := by
  have hfe : (fun kv : Str × CacheEntry =>
      decide (pruneLimit p < now_ms - kv.2.created_at_ms)) =
      (fun kv : Str × CacheEntry =>
        !(p.is_fresh (now_ms - kv.2.created_at_ms)
          || p.allow_stale_error (now_ms - kv.2.created_at_ms)
          || p.allow_stale_offline (now_ms - kv.2.created_at_ms))) := by
    funext kv
    exact prunePred_as_policy p now_ms kv.2
  refine ⟨?_, ?_, ?_, ?_⟩
  · intro kv
    unfold cachePrune
    simp only [List.mem_filter, Bool.not_eq_eq_eq_not, Bool.not_true,
      decide_eq_false_iff_not, not_lt]
    constructor
    · rintro ⟨hm, hle⟩
      refine ⟨hm, ?_⟩
      have := (pruneLimit_lt_iff p (now_ms - kv.2.created_at_ms)).not.mp (not_lt.mpr hle)
      rcases hf : p.is_fresh (now_ms - kv.2.created_at_ms) with _ | _ <;>
      rcases he : p.allow_stale_error (now_ms - kv.2.created_at_ms) with _ | _ <;>
      rcases ho : p.allow_stale_offline (now_ms - kv.2.created_at_ms) with _ | _ <;>
        simp_all
    · rintro ⟨hm, hserve⟩
      refine ⟨hm, ?_⟩
      by_contra hlt
      rw [not_le] at hlt
      have h3 := (pruneLimit_lt_iff p (now_ms - kv.2.created_at_ms)).mp hlt
      rw [h3.1, h3.2.1, h3.2.2] at hserve
      simp at hserve
  · unfold cachePrune
    simp only []
    rw [show (fun kv : Str × CacheEntry =>
        decide (pruneLimit p < now_ms - kv.2.created_at_ms)) =
        (fun kv : Str × CacheEntry =>
          !(p.is_fresh (now_ms - kv.2.created_at_ms)
            || p.allow_stale_error (now_ms - kv.2.created_at_ms)
            || p.allow_stale_offline (now_ms - kv.2.created_at_ms))) from hfe]
  · unfold cachePrune
    simp only []
    exact length_filter_not_add _ store
  · unfold cachePrune
    simp only [List.filter_filter]
    refine Prod.ext ?_ ?_
    · simp
    · simp

theorem toNat_ofNat_shift (c : Char) (h1 : 65 ≤ c.toNat) (h2 : c.toNat ≤ 90) :
    (Char.ofNat (c.toNat + 32)).toNat = c.toNat + 32 := by
  have hv : Nat.isValidChar (c.toNat + 32) := Or.inl (by omega)
  rw [Char.ofNat, dif_pos hv]
  rfl

theorem lowerChar_idem (c : Char) : lowerChar (lowerChar c) = lowerChar c := by
  unfold lowerChar
  by_cases h : 65 ≤ c.toNat ∧ c.toNat ≤ 90
  · rw [if_pos h, if_neg]
    rw [toNat_ofNat_shift c h.1 h.2]
    omega
  · rw [if_neg h, if_neg h]

theorem lowerStr_idem (s : Str) : lowerStr (lowerStr s) = lowerStr s := by
  unfold lowerStr
  rw [List.map_map]
  apply List.map_congr_left
  intro c _
  exact lowerChar_idem c

theorem all_keys_insertA {β : Type} (q : Str → Bool) (k : Str) (v : β)
    (m : List (Str × β)) (hk : q k = true)
    (hm : ((m.map Prod.fst).all q) = true) :
    (((insertA k v m).map Prod.fst).all q) = true := by
  induction m with
  | nil => simpa [insertA] using hk
  | cons p rest ih =>
    rw [insertA_cons]
    simp only [List.map_cons, List.all_cons, Bool.and_eq_true] at hm
    by_cases h : p.1 = k
    · rw [if_pos h]
      simp only [List.map_cons, List.all_cons, Bool.and_eq_true]
      exact ⟨hk, hm.2⟩
    · rw [if_neg h]
      simp only [List.map_cons, List.all_cons, Bool.and_eq_true]
      exact ⟨hm.1, ih hm.2⟩

theorem all_keys_normalize_aux (hs : List (Str × Str)) :
    ∀ acc : List (Str × Str),
      ((acc.map Prod.fst).all (fun k => decide (lowerStr k = k))) = true →
      (((hs.foldl (fun a kv => insertA (lowerStr kv.1) kv.2 a) acc).map
        Prod.fst).all (fun k => decide (lowerStr k = k))) = true := by
  induction hs with
  | nil =>
    intro acc h
    simpa using h
  | cons kv rest ih =>
    intro acc h
    rw [List.foldl_cons]
    apply ih
    apply all_keys_insertA _ _ _ _ ?_ h
    simp [lowerStr_idem]

theorem lookupA_normalizeHeaders (hs : List (Str × Str)) (κ : Str) :
    lookupA κ (normalizeHeaders hs) =
      ((hs.filter (fun kv => decide (lowerStr kv.1 = κ))).getLast?).map
        Prod.snd := by
  induction hs using List.reverseRecOn with
  | nil => simp [normalizeHeaders, lookupA]
  | append_singleton rest p ih =>
    have hn : normalizeHeaders (rest ++ [p]) =
        insertA (lowerStr p.1) p.2 (normalizeHeaders rest) := by
      unfold normalizeHeaders
      rw [List.foldl_append]
      rfl
    rw [hn, lookupA_insertA, List.filter_append]
    by_cases h : lowerStr p.1 = κ
    · rw [if_pos h]
      have : List.filter (fun kv => decide (lowerStr kv.1 = κ)) [p] = [p] := by
        simp [List.filter, h]
      rw [this, List.getLast?_concat]
      rfl
    · rw [if_neg h]
      have : List.filter (fun kv => decide (lowerStr kv.1 = κ)) [p] = [] := by
        simp [List.filter, h]
      rw [this, List.append_nil, ih]

/-- C8: `Cache::put` forwards the entry with its header map rebuilt by
`HeaderUtil::normalizeInPlace`, so a subsequent store lookup of the same
key yields exactly that normalized entry; every key of the normalized
header map is lowercase (fixed by lowercasing), and looking any name up
in the normalized map returns the value of the last original pair whose
lowercased key matches — last-write-wins on case collisions. -/
theorem cachePut_normalizes_headers (store : Store) (key : Str)
    (e : CacheEntry) :
    lookupA key (cachePut store key e)
      = some { e with headers := normalizeHeaders e.headers }
    ∧ (((normalizeHeaders e.headers).map Prod.fst).all
        (fun k => decide (lowerStr k = k))) = true
    ∧ ∀ κ, lookupA κ (normalizeHeaders e.headers) =
        ((e.headers.filter (fun kv => decide (lowerStr kv.1 = κ))).getLast?).map
          Prod.snd := by
  refine ⟨?_, ?_, ?_⟩
  · unfold cachePut
    rw [lookupA_insertA, if_pos rfl]
  · exact all_keys_normalize_aux e.headers [] (by simp)
  · intro κ
    exact lookupA_normalizeHeaders e.headers κ

theorem headerFold_eq_append (headers : List (Str × Str)) (key name : Str) :
    headerFold headers key name = key ++ headerItem headers name := by
  unfold headerFold headerItem
  rcases h1 : lookupA name headers with _ | v <;>
  rcases h2 : lookupA (lowerStr name) headers with _ | v2 <;>
    simp [h1, h2]

theorem foldl_append_of_step {α : Type} (f : Str → α → Str) (g : α → Str)
    (hf : ∀ s a, f s a = s ++ g a) :
    ∀ (l : List α) (init : Str), l.foldl f init = init ++ (l.map g).flatten := by
  intro l
  induction l with
  | nil =>
    intro init
    simp
  | cons a rest ih =>
    intro init
    rw [List.foldl_cons, hf, ih, List.map_cons, List.flatten_cons,
      List.append_assoc]

/-- C6: with a nonempty inclusion list, `CacheKey::fromRequest` appends
` |h:` and then one contribution per inclusion-list name, in list order
(not sorted); each name's contribution looks the headers map up under the
exact name first and only on a miss under the lowercased name, appending
`lowercased-name=trimmed-value;` on either hit and nothing when both
lookups miss; an empty inclusion list contributes no header segment at
all. -/
theorem fromRequest_header_segment (method path query : Str)
    (hs : List (Str × Str)) (n : Str) (inc : List Str) :
    fromRequest method path query hs []
      = (upperStr method ++ ' ' :: path)
        ++ (if normalizeQuery query = [] then []
            else '?' :: normalizeQuery query)
    ∧ fromRequest method path query hs (n :: inc)
        = fromRequest method path query hs [] ++ (" |h:").data
          ++ ((n :: inc).map (headerItem hs)).flatten
    ∧ ∀ name, headerItem hs name =
        (match lookupA name hs, lookupA (lowerStr name) hs with
         | some v, _ => lowerStr name ++ '=' :: trimStr v ++ [';']
         | none, some v2 => lowerStr name ++ '=' :: trimStr v2 ++ [';']
         | none, none => []) := by
  refine ⟨?_, ?_, ?_⟩
  · unfold fromRequest
    by_cases h : normalizeQuery query = [] <;> simp [h]
  · have hfold := foldl_append_of_step (headerFold hs) (headerItem hs)
      (headerFold_eq_append hs) (n :: inc)
    unfold fromRequest
    by_cases h : normalizeQuery query = [] <;>
      simp [h, hfold, List.append_assoc]
  · intro name
    unfold headerItem
    rcases h1 : lookupA name hs with _ | v <;>
    rcases h2 : lookupA (lowerStr name) hs with _ | v2 <;>
      simp [h1, h2]

theorem lexLt_cons_iff (x y : Char) (xs ys : Str) :
    lexLt (x :: xs) (y :: ys) = true ↔
      (x.toNat < y.toNat ∨ (x.toNat = y.toNat ∧ lexLt xs ys = true)) := by
  show (if x.toNat < y.toNat then true
    else if y.toNat < x.toNat then false else lexLt xs ys) = true ↔ _
  by_cases h1 : x.toNat < y.toNat
  · simp [h1]
  · by_cases h2 : y.toNat < x.toNat
    · rw [if_neg h1, if_pos h2]
      constructor
      · intro hx
        exact Bool.noConfusion hx
      · rintro (hlt | ⟨heq, _⟩) <;> omega
    · have heq : x.toNat = y.toNat := by omega
      rw [if_neg h1, if_neg h2]
      simp [heq, h1]

theorem char_toNat_inj {a b : Char} (h : a.toNat = b.toNat) : a = b := by
  calc a = Char.ofNat a.toNat := (Char.ofNat_toNat a).symm
  _ = Char.ofNat b.toNat := by rw [h]
  _ = b := Char.ofNat_toNat b

theorem lexLt_trans : ∀ {a b c : Str},
    lexLt a b = true → lexLt b c = true → lexLt a c = true
  | [], _ :: _, _ :: _, _, _ => rfl
  | [], [], _, h1, _ => Bool.noConfusion h1
  | [], _ :: _, [], _, h2 => Bool.noConfusion h2
  | _ :: _, [], _, h1, _ => Bool.noConfusion h1
  | _ :: _, _ :: _, [], _, h2 => Bool.noConfusion h2
  | x :: xs, y :: ys, z :: zs, h1, h2 => by
    rw [lexLt_cons_iff] at h1 h2 ⊢
    rcases h1 with hlt1 | ⟨heq1, ht1⟩ <;> rcases h2 with hlt2 | ⟨heq2, ht2⟩
    · exact Or.inl (by omega)
    · exact Or.inl (by omega)
    · exact Or.inl (by omega)
    · exact Or.inr ⟨by omega, lexLt_trans ht1 ht2⟩

theorem lexLt_connex : ∀ {a b : Str},
    lexLt a b = false → lexLt b a = false → a = b
  | [], [], _, _ => rfl
  | [], _ :: _, h1, _ => Bool.noConfusion h1
  | _ :: _, [], _, h2 => Bool.noConfusion h2
  | x :: xs, y :: ys, h1, h2 => by
    have h1' : ¬(x.toNat < y.toNat ∨ (x.toNat = y.toNat ∧ lexLt xs ys = true)) := by
      rw [← lexLt_cons_iff]
      simp [h1]
    have h2' : ¬(y.toNat < x.toNat ∨ (y.toNat = x.toNat ∧ lexLt ys xs = true)) := by
      rw [← lexLt_cons_iff]
      simp [h2]
    push_neg at h1' h2'
    have heq : x.toNat = y.toNat := by omega
    have ht1 : lexLt xs ys = false := by
      rcases hb : lexLt xs ys with _ | _
      · rfl
      · exact absurd hb (by simpa [heq] using h1'.2 heq)
    have ht2 : lexLt ys xs = false := by
      rcases hb : lexLt ys xs with _ | _
      · rfl
      · exact absurd hb (by simpa [heq] using h2'.2 heq.symm)
    rw [char_toNat_inj heq, lexLt_connex ht1 ht2]

theorem lexLt_le_trans {a b c : Str}
    (h1 : lexLt b a = false) (h2 : lexLt c b = false) : lexLt c a = false := by
  rcases hx : lexLt c a with _ | _
  · rfl
  · exfalso
    rcases hab : lexLt a b with _ | _
    · have hba : a = b := lexLt_connex hab h1
      rw [hba] at hx
      rw [hx] at h2
      exact Bool.noConfusion h2
    · have := lexLt_trans hx hab
      rw [this] at h2
      exact Bool.noConfusion h2

theorem pairLt_fst_ne (a b : Str × Str) (h : a.1 ≠ b.1) :
    pairLt a b = lexLt a.1 b.1 := by
  unfold pairLt
  rw [if_pos h]

theorem pairLt_fst_eq (a b : Str × Str) (h : a.1 = b.1) :
    pairLt a b = lexLt a.2 b.2 := by
  unfold pairLt
  rw [if_neg (by simpa using h)]

instance : IsTrans (Str × Str) qle := by
  constructor
  intro a b c h1 h2
  unfold qle at h1 h2 ⊢
  by_cases hba : b.1 = a.1
  · by_cases hcb : c.1 = b.1
    · rw [pairLt_fst_eq b a hba] at h1
      rw [pairLt_fst_eq c b hcb] at h2
      rw [pairLt_fst_eq c a (hcb.trans hba), lexLt_le_trans h1 h2]
    · rw [pairLt_fst_ne c b hcb] at h2
      have hca : c.1 ≠ a.1 := fun hc => hcb (hc.trans hba.symm)
      rw [pairLt_fst_ne c a hca, ← hba, h2]
  · by_cases hcb : c.1 = b.1
    · rw [pairLt_fst_ne b a hba] at h1
      have hca : c.1 ≠ a.1 := fun hc => hba ((hcb.symm.trans hc).symm ▸ rfl)
      rw [pairLt_fst_ne c a hca, hcb, h1]
    · rw [pairLt_fst_ne b a hba] at h1
      rw [pairLt_fst_ne c b hcb] at h2
      by_cases hca : c.1 = a.1
      · exfalso
        rw [hca] at h2
        exact hba (lexLt_connex h1 h2)
      · rw [pairLt_fst_ne c a hca]
        exact lexLt_le_trans h1 h2

instance : IsAntisymm (Str × Str) qle := by
  constructor
  intro a b h1 h2
  unfold qle at h1 h2
  by_cases hab : a.1 = b.1
  · rw [pairLt_fst_eq b a hab.symm] at h1
    rw [pairLt_fst_eq a b hab] at h2
    have hsnd : a.2 = b.2 := lexLt_connex h2 h1
    exact Prod.ext hab hsnd
  · rw [pairLt_fst_ne b a (fun h => hab h.symm)] at h1
    rw [pairLt_fst_ne a b hab] at h2
    exact absurd (lexLt_connex h2 h1) hab

theorem lexLt_irrefl : ∀ a : Str, lexLt a a = false
  | [] => rfl
  | x :: xs => by
    rcases hb : lexLt (x :: xs) (x :: xs) with _ | _
    · rfl
    · exfalso
      rw [lexLt_cons_iff] at hb
      rcases hb with h | ⟨_, h⟩
      · omega
      · rw [lexLt_irrefl xs] at h
        exact Bool.noConfusion h

theorem lexLt_asymm {a b : Str} (h : lexLt a b = true) : lexLt b a = false := by
  rcases hx : lexLt b a with _ | _
  · rfl
  · exfalso
    have := lexLt_trans h hx
    rw [lexLt_irrefl a] at this
    exact Bool.noConfusion this

instance : IsTotal (Str × Str) qle := by
  constructor
  intro a b
  unfold qle
  by_cases hab : a.1 = b.1
  · rw [pairLt_fst_eq b a hab.symm, pairLt_fst_eq a b hab]
    rcases h1 : lexLt b.2 a.2 with _ | _
    · exact Or.inl rfl
    · exact Or.inr (lexLt_asymm h1)
  · rw [pairLt_fst_ne b a (fun h => hab h.symm), pairLt_fst_ne a b hab]
    rcases h1 : lexLt b.1 a.1 with _ | _
    · exact Or.inl rfl
    · exact Or.inr (lexLt_asymm h1)

theorem normalizeQuery_eq_join (q : Str) :
    normalizeQuery q = joinPairs (List.insertionSort qle (parseQuery q)) := by
  by_cases h : q = []
  · subst h
    rfl
  · unfold normalizeQuery
    rw [if_neg h]

/-- C5: the cache key depends on the query only through the multiset of
its `&`-separated pairs: two query strings parsing to permutations of the
same pair list produce the identical key; and the normalized query is the
parsed pairs sorted by the `(key, value)` byte-lexicographic comparator
(the sort result being a sorted permutation of the parse, hence the
unique one, which makes any stable sort produce it) rejoined with `&`,
`=` omitted for empty values (see `renderPair`/`joinPairs`). -/
theorem fromRequest_query_perm (method path : Str) (hs : List (Str × Str))
    (inc : List Str) (q q' : Str)
    (hperm : (parseQuery q).Perm (parseQuery q')) :
    fromRequest method path q hs inc = fromRequest method path q' hs inc
    ∧ normalizeQuery q = joinPairs (List.insertionSort qle (parseQuery q))
    ∧ List.Sorted qle (List.insertionSort qle (parseQuery q))
    ∧ (List.insertionSort qle (parseQuery q)).Perm (parseQuery q) := by
  have hsort1 := List.sorted_insertionSort qle (parseQuery q)
  have hsort2 := List.sorted_insertionSort qle (parseQuery q')
  have hp1 := List.perm_insertionSort qle (parseQuery q)
  have hp2 := List.perm_insertionSort qle (parseQuery q')
  have hseq : List.insertionSort qle (parseQuery q)
      = List.insertionSort qle (parseQuery q') :=
    List.eq_of_perm_of_sorted ((hp1.trans hperm).trans hp2.symm) hsort1 hsort2
  have hnq : normalizeQuery q = normalizeQuery q' := by
    rw [normalizeQuery_eq_join q, normalizeQuery_eq_join q', hseq]
  refine ⟨?_, normalizeQuery_eq_join q, hsort1, hp1⟩
  unfold fromRequest
  rw [hnq]

/-- C5 witness: `"b=2&a=1"` and `"a=1&b=2"` parse to permuted pair lists
and therefore produce the identical cache key. -/
theorem fromRequest_query_perm_witness :
    (parseQuery ("b=2&a=1").data).Perm (parseQuery ("a=1&b=2").data)
    ∧ fromRequest ("GET").data ("/api/users").data ("b=2&a=1").data
        [] [] =
      fromRequest ("GET").data ("/api/users").data ("a=1&b=2").data
        [] [] :=
  ⟨by decide,
    (fromRequest_query_perm ("GET").data ("/api/users").data [] []
      ("b=2&a=1").data ("a=1&b=2").data (by decide)).1⟩

theorem mem_dropLast_of_getLast {lru : List Str} {victim : Str}
    (hnd : lru.Nodup) (hlast : lru.getLast? = some victim) :
    ∀ k, k ∈ lru.dropLast ↔ k ∈ lru ∧ k ≠ victim := by
  have heq := List.dropLast_append_getLast? victim hlast
  have hnd2 : (lru.dropLast ++ [victim]).Nodup := by rw [heq]; exact hnd
  rw [List.nodup_append] at hnd2
  intro k
  constructor
  · intro hk
    refine ⟨?_, ?_⟩
    · rw [← heq]
      exact List.mem_append_left _ hk
    · intro hkv
      exact hnd2.2.2 hk (by simp [hkv])
  · rintro ⟨hk, hkv⟩
    rw [← heq] at hk
    rcases List.mem_append.mp hk with h | h
    · exact h
    · simp at h
      exact absurd h hkv

theorem evictLoop_spec (maxe : Nat) :
    ∀ (fuel : Nat) (lru : List Str) (m : List (Str × CacheEntry)),
      fuel = lru.length →
      (m.map Prod.fst).Nodup → lru.Nodup →
      (∀ k, k ∈ lru ↔ k ∈ m.map Prod.fst) →
      ((evictLoop maxe fuel lru m).2.map Prod.fst).Nodup
      ∧ (evictLoop maxe fuel lru m).1.Nodup
      ∧ (∀ k, k ∈ (evictLoop maxe fuel lru m).1
          ↔ k ∈ (evictLoop maxe fuel lru m).2.map Prod.fst)
      ∧ (evictLoop maxe fuel lru m).2.length ≤ maxe := by
  intro fuel
  induction fuel with
  | zero =>
    intro lru m hfuel h1 h2 h3
    have hm : m.map Prod.fst = [] := by
      have hlru : lru = [] := List.eq_nil_of_length_eq_zero hfuel.symm
      rcases hmm : m.map Prod.fst with _ | ⟨x, xs⟩
      · rfl
      · have hx := (h3 x).mpr (by rw [hmm]; exact List.mem_cons_self x xs)
        rw [hlru] at hx
        exact absurd hx (List.not_mem_nil x)
    have hmlen : m.length = 0 := by
      have := congrArg List.length hm
      simpa using this
    exact ⟨h1, h2, h3, by simp [evictLoop, hmlen]⟩
  | succ n ih =>
    intro lru m hfuel h1 h2 h3
    rcases hlast : lru.getLast? with _ | victim
    · exfalso
      have hlru : lru = [] := by
        rcases lru with _ | ⟨x, xs⟩
        · rfl
        · rw [List.getLast?_eq_getLast (x :: xs) (List.cons_ne_nil x xs)] at hlast
          exact Option.noConfusion hlast
      rw [hlru] at hfuel
      simp at hfuel
    · have hlru_ne : lru ≠ [] := by
        intro hl
        rw [hl] at hlast
        exact Option.noConfusion hlast
      have hvic_mem : victim ∈ lru := by
        have heq := List.dropLast_append_getLast? victim hlast
        rw [← heq]
        exact List.mem_append_right _ (by simp)
      by_cases hcap : maxe < m.length
      · have hstep : evictLoop maxe (n + 1) lru m
            = evictLoop maxe n lru.dropLast (eraseA victim m) := by
          simp [evictLoop, hlast, hcap]
        rw [hstep]
        apply ih
        · have := List.length_dropLast lru
          rcases lru with _ | ⟨x, xs⟩
          · exact absurd rfl hlru_ne
          · simp at hfuel this ⊢
            omega
        · rw [map_fst_eraseA]
          exact h1.erase victim
        · exact (List.dropLast_sublist lru).nodup h2
        · intro k
          rw [map_fst_eraseA, List.Nodup.mem_erase_iff h1,
            mem_dropLast_of_getLast h2 hlast k, h3 k]
          tauto
      · have hstep : evictLoop maxe (n + 1) lru m = (lru, m) := by
          simp [evictLoop, hlast, hcap]
        rw [hstep]
        refine ⟨h1, h2, h3, ?_⟩
        show m.length ≤ maxe
        omega

theorem touchKey_nodup {k : Str} {lru : List Str} (hnd : lru.Nodup) :
    (touchKey k lru).Nodup := by
  unfold touchKey
  exact List.nodup_cons.mpr ⟨hnd.not_mem_erase, hnd.erase k⟩

theorem touchKey_mem {k : Str} {lru : List Str} (hnd : lru.Nodup)
    (hk : k ∈ lru) : ∀ x, x ∈ touchKey k lru ↔ x ∈ lru := by
  intro x
  unfold touchKey
  by_cases hx : x = k
  · subst hx
    simp [hk]
  · rw [List.mem_cons]
    constructor
    · rintro (h | h)
      · exact absurd h hx
      · exact ((hnd.mem_erase_iff).mp h).2
    · intro h
      exact Or.inr ((hnd.mem_erase_iff).mpr ⟨hx, h⟩)

theorem lruPut_inv (k : Str) (e : CacheEntry) (s : LruStore)
    (h : LruInv s) : LruInv (lruPut k e s) := by
  obtain ⟨h1, h2, h3, h4⟩ := h
  unfold lruPut
  rcases hl : lookupA k s.map with _ | e0
  · have hknot : k ∉ s.map.map Prod.fst := (lookupA_eq_none k s.map).mp hl
    have hklru : k ∉ s.lru := fun hk => hknot ((h3 k).mp hk)
    have h1' : (((k, e) :: s.map).map Prod.fst).Nodup := by
      rw [List.map_cons]
      exact List.nodup_cons.mpr ⟨hknot, h1⟩
    have h2' : (k :: s.lru).Nodup := List.nodup_cons.mpr ⟨hklru, h2⟩
    have h3' : ∀ x, x ∈ k :: s.lru ↔ x ∈ ((k, e) :: s.map).map Prod.fst := by
      intro x
      rw [List.map_cons, List.mem_cons, List.mem_cons, h3 x]
    have hspec := evictLoop_spec s.max_entries (k :: s.lru).length
      (k :: s.lru) ((k, e) :: s.map) rfl h1' h2' h3'
    exact ⟨hspec.1, hspec.2.1, hspec.2.2.1, hspec.2.2.2⟩
  · have hkmem : k ∈ s.map.map Prod.fst := by
      rw [← lookupA_isSome_iff, hl]
      rfl
    have hklru : k ∈ s.lru := (h3 k).mpr hkmem
    refine ⟨?_, ?_, ?_, ?_⟩
    · rw [map_fst_updateA]
      exact h1
    · exact touchKey_nodup h2
    · intro x
      rw [touchKey_mem h2 hklru x, map_fst_updateA]
      exact h3 x
    · rw [length_updateA]
      exact h4

theorem lruGet_inv (k : Str) (s : LruStore) (h : LruInv s) :
    LruInv (lruGet k s).2 := by
  obtain ⟨h1, h2, h3, h4⟩ := h
  unfold lruGet
  rcases hl : lookupA k s.map with _ | e0
  · exact ⟨h1, h2, h3, h4⟩
  · have hkmem : k ∈ s.map.map Prod.fst := by
      rw [← lookupA_isSome_iff, hl]
      rfl
    have hklru : k ∈ s.lru := (h3 k).mpr hkmem
    refine ⟨h1, touchKey_nodup h2, ?_, h4⟩
    intro x
    rw [touchKey_mem h2 hklru x]
    exact h3 x

theorem lruErase_inv (k : Str) (s : LruStore) (h : LruInv s) :
    LruInv (lruErase k s) := by
  obtain ⟨h1, h2, h3, h4⟩ := h
  unfold lruErase
  rcases hl : lookupA k s.map with _ | e0
  · exact ⟨h1, h2, h3, h4⟩
  · show LruInv { s with map := eraseA k s.map, lru := s.lru.erase k }
    refine ⟨?_, h2.erase k, ?_, ?_⟩
    · show ((eraseA k s.map).map Prod.fst).Nodup
      rw [map_fst_eraseA]
      exact h1.erase k
    · intro x
      show x ∈ s.lru.erase k ↔ x ∈ (eraseA k s.map).map Prod.fst
      rw [map_fst_eraseA, h2.mem_erase_iff, h1.mem_erase_iff, h3 x]
    · show (eraseA k s.map).length ≤ s.max_entries
      have hlen : (eraseA k s.map).length
          = ((s.map.map Prod.fst).erase k).length := by
        rw [← map_fst_eraseA]
        simp
      have hsub := (List.erase_sublist k (s.map.map Prod.fst)).length_le
      simp only [List.length_map] at hsub
      omega

theorem lruClear_inv (s : LruStore) (h : LruInv s) : LruInv (lruClear s) := by
  exact ⟨by simp [lruClear], by simp [lruClear],
    by intro x; simp [lruClear], by simp [lruClear]⟩

theorem doomed_spec (pred : CacheEntry → Bool) (m : List (Str × CacheEntry))
    (hnd : (m.map Prod.fst).Nodup) (k : Str) :
    k ∈ (m.filter (fun kv => !pred kv.2)).map Prod.fst ↔
      k ∈ m.map Prod.fst ∧
        ¬(match lookupA k m with
          | some e => pred e
          | none => false) = true := by
  constructor
  · intro hk
    rcases List.mem_map.mp hk with ⟨kv, hkv, hfst⟩
    rcases List.mem_filter.mp hkv with ⟨hm, hp⟩
    have hlk : lookupA k m = some kv.2 := by
      rw [← hfst]
      exact mem_lookupA kv.1 kv.2 m hnd (by rcases kv with ⟨a, b⟩; exact hm)
    refine ⟨List.mem_map.mpr ⟨kv, hm, hfst⟩, ?_⟩
    rw [hlk]
    have hp0 : pred kv.2 = false := by
      rcases hx : pred kv.2 with _ | _
      · rfl
      · rw [hx] at hp
        exact Bool.noConfusion hp
    simp [hp0]
  · rintro ⟨hk, hnp⟩
    have hsome : (lookupA k m).isSome := (lookupA_isSome_iff k m).mpr hk
    rcases hl : lookupA k m with _ | e0
    · rw [hl] at hsome
      exact Bool.noConfusion hsome
    · have hmem : (k, e0) ∈ m := lookupA_mem k e0 m hl
      rw [hl] at hnp
      have hp0 : pred e0 = false := by
        rcases hp : pred e0 with _ | _
        · rfl
        · exact absurd hp hnp
      refine List.mem_map.mpr ⟨(k, e0), ?_, rfl⟩
      exact List.mem_filter.mpr ⟨hmem, by simp [hp0]⟩

theorem lruEraseIf_inv (pred : CacheEntry → Bool) (s : LruStore)
    (h : LruInv s) : LruInv (lruEraseIf pred s).2 := by
  obtain ⟨h1, h2, h3, h4⟩ := h
  unfold lruEraseIf
  refine ⟨?_, ?_, ?_, ?_⟩
  · exact ((List.filter_sublist s.map).map Prod.fst).nodup h1
  · exact h2.filter _
  · intro x
    show x ∈ s.lru.filter
        (fun k => !(match lookupA k s.map with
          | some e => pred e
          | none => false)) ↔
      x ∈ (s.map.filter (fun kv => !pred kv.2)).map Prod.fst
    rw [List.mem_filter, doomed_spec pred s.map h1 x, ← h3 x]
    simp
  · calc (s.map.filter (fun kv => !pred kv.2)).length ≤ s.map.length :=
        List.length_filter_le _ _
    _ ≤ s.max_entries := h4

/-- C3: starting from a freshly constructed `LruMemoryStore`, after every
sequence of put/get/erase/clear/eraseIf operations the map holds at most
`max_entries` keys, its keys are unique, and the recency list carries
exactly the map's keys, each exactly once — the list/map correspondence
the C++ stored list iterators embody. -/
theorem lru_sequence_invariant (max_entries : Nat) (ops : List LruOp) :
    LruInv (runLruOps ops (emptyLru max_entries)) := by
  have hstep : ∀ (s : LruStore) (op : LruOp),
      LruInv s → LruInv (applyLruOp s op) := by
    intro s op hs
    rcases op with ⟨k, e⟩ | k | k | _ | pred
    · exact lruPut_inv k e s hs
    · exact lruGet_inv k s hs
    · exact lruErase_inv k s hs
    · exact lruClear_inv s hs
    · exact lruEraseIf_inv pred s hs
  have hbase : LruInv (emptyLru max_entries) := by
    refine ⟨?_, ?_, ?_, ?_⟩ <;> simp [emptyLru]
  have hfold : ∀ (l : List LruOp) (s : LruStore),
      LruInv s → LruInv (l.foldl applyLruOp s) := by
    intro l
    induction l with
    | nil =>
      intro s hs
      exact hs
    | cons op rest ih =>
      intro s hs
      rw [List.foldl_cons]
      exact ih _ (hstep s op hs)
  exact hfold ops _ hbase

/-- C4: with capacity 2 and pairwise distinct keys, `put x; put y; put z`
evicts `x` (the least recently used) so `get x` misses while `get y` and
`get z` return their stored entries; touching `y` via `get` and then
putting `w` evicts `z`, not the freshly touched `y`. -/
theorem lru_capacity_two_scenario (x y z w : Str) (ex ey ez ew : CacheEntry)
    (hxy : x ≠ y) (hxz : x ≠ z) (hxw : x ≠ w)
    (hyz : y ≠ z) (hyw : y ≠ w) (hzw : z ≠ w) :
    (lruGet x (lruPut z ez (lruPut y ey (lruPut x ex (emptyLru 2))))).1 = none
    ∧ (lruGet y (lruPut z ez (lruPut y ey (lruPut x ex (emptyLru 2))))).1
        = some ey
    ∧ (lruGet z (lruPut z ez (lruPut y ey (lruPut x ex (emptyLru 2))))).1
        = some ez
    ∧ (lruGet z (lruPut w ew
        (lruGet y (lruPut z ez (lruPut y ey (lruPut x ex (emptyLru 2))))).2)).1
        = none
    ∧ (lruGet y (lruPut w ew
        (lruGet y (lruPut z ez (lruPut y ey (lruPut x ex (emptyLru 2))))).2)).1
        = some ey := by
  refine ⟨?_, ?_, ?_, ?_, ?_⟩ <;>
    simp [lruPut, lruGet, emptyLru, evictIfNeeded, evictLoop, lookupA,
      eraseA, touchKey, List.erase_cons, hxy, hxz, hxw, hyz, hyw, hzw,
      Ne.symm hxy, Ne.symm hxz, Ne.symm hxw, Ne.symm hyz, Ne.symm hyw,
      Ne.symm hzw]

/-- C4 witness: the scenario instantiated at the four concrete keys
`x`, `y`, `z`, `w` and default entries. -/
theorem lru_capacity_two_scenario_witness :
    (('x' :: []) ≠ ('y' :: []) ∧ ('x' :: []) ≠ ('z' :: [])
      ∧ ('x' :: []) ≠ ('w' :: []) ∧ ('y' :: []) ≠ ('z' :: [])
      ∧ ('y' :: []) ≠ ('w' :: []) ∧ ('z' :: []) ≠ ('w' :: []))
    ∧ ((lruGet ('x' :: []) (lruPut ('z' :: []) {} (lruPut ('y' :: []) {}
        (lruPut ('x' :: []) {} (emptyLru 2))))).1 = none
      ∧ (lruGet ('y' :: []) (lruPut ('z' :: []) {} (lruPut ('y' :: []) {}
          (lruPut ('x' :: []) {} (emptyLru 2))))).1 = some {}
      ∧ (lruGet ('z' :: []) (lruPut ('z' :: []) {} (lruPut ('y' :: []) {}
          (lruPut ('x' :: []) {} (emptyLru 2))))).1 = some {}
      ∧ (lruGet ('z' :: []) (lruPut ('w' :: []) {}
          (lruGet ('y' :: []) (lruPut ('z' :: []) {} (lruPut ('y' :: []) {}
            (lruPut ('x' :: []) {} (emptyLru 2))))).2)).1 = none
      ∧ (lruGet ('y' :: []) (lruPut ('w' :: []) {}
          (lruGet ('y' :: []) (lruPut ('z' :: []) {} (lruPut ('y' :: []) {}
            (lruPut ('x' :: []) {} (emptyLru 2))))).2)).1 = some {}) :=
  ⟨⟨by decide, by decide, by decide, by decide, by decide, by decide⟩,
    lru_capacity_two_scenario ('x' :: []) ('y' :: []) ('z' :: []) ('w' :: [])
      {} {} {} {} (by decide) (by decide) (by decide) (by decide) (by decide)
      (by decide)⟩

end VixCache
